import Mathlib

/-!
Shallow embedding of the categorical-value adapter of pyspark.pandas:
the codec `CategoricalOps.restore` / `CategoricalOps.prepare`
(`python/pyspark/pandas/data_type_ops/categorical_ops.py`) and the
category-set mutation operations of `CategoricalIndex`
(`python/pyspark/pandas/indexes/category.py`).

Labels are drawn from an arbitrary type `α` with decidable equality.
A code column is a `List (Option Nat)`: `none` is the sentinel
(`-1` / null) and `some k` a position into the category list.
Fallible operations return `Except CatError`.
-/

set_option linter.unusedSectionVars false
set_option linter.unusedVariables false

namespace SparkCat

variable {α : Type} [DecidableEq α]

/-- Error taxonomy of the adapter: in-place mutation requested
(`ValueError("cannot use inplace with CategoricalIndex")`), a category-set
precondition violation (pandas `ValueError`), or an out-of-range code met
during decode (`IndexError`-class). -/
inductive CatError where
  | unsupportedInplace : CatError
  | validation : String → CatError
  | indexError : CatError
deriving DecidableEq

instance instDecEqExcept {ε β : Type} [DecidableEq ε] [DecidableEq β] :
    DecidableEq (Except ε β) := fun a b =>
  match a, b with
  | Except.ok x, Except.ok y =>
    if h : x = y then isTrue (by rw [h]) else isFalse (fun he => by cases he; exact h rfl)
  | Except.error x, Except.error y =>
    if h : x = y then isTrue (by rw [h]) else isFalse (fun he => by cases he; exact h rfl)
  | Except.ok _, Except.error _ => isFalse (fun he => by cases he)
  | Except.error _, Except.ok _ => isFalse (fun he => by cases he)

/-- A categorical schema: the ordered category list plus the ordered flag
(pandas `CategoricalDtype`). -/
structure CategoricalDtype (α : Type) where
  categories : List α
  ordered : Bool
deriving DecidableEq

/-- The predicate `codeOk n c`: the code `c` is the sentinel or a position `< n`. -/
def codeOk (n : Nat) : Option Nat → Prop
  | none => True
  | some k => k < n

instance instDecidableCodeOk (n : Nat) (c : Option Nat) : Decidable (codeOk n c) :=
  match c with
  | none => isTrue trivial
  | some k => Nat.decLt k n

/-- The code-validity invariant: every non-sentinel code indexes a valid
position in the category list of the schema. -/
def validCodes (dt : CategoricalDtype α) (codes : List (Option Nat)) : Prop :=
  ∀ c ∈ codes, codeOk dt.categories.length c

instance instDecidableValidCodes (dt : CategoricalDtype α) (codes : List (Option Nat)) :
    Decidable (validCodes dt codes) :=
  List.decidableBAll _ codes

/-- Position of the first occurrence of `x` in a list, or `none`. -/
def posOf : List α → α → Option Nat
  | [], _ => none
  | c :: cs, x => if c = x then some 0 else (posOf cs x).map (· + 1)

/-- Decode one code against a schema: sentinel stays missing, a position is
looked up in the category list, out-of-range fails
(`pd.Categorical.from_codes` range validation). -/
def restoreCode (dt : CategoricalDtype α) : Option Nat → Except CatError (Option α)
  | none => Except.ok none
  | some k =>
    match dt.categories[k]? with
    | some x => Except.ok (some x)
    | none => Except.error CatError.indexError

/-- The codec `CategoricalOps.restore`: decode a code column into a label column via
`pd.Categorical.from_codes(col, categories=self.dtype.categories, ...)`. -/
def restore (dt : CategoricalDtype α) : List (Option Nat) → Except CatError (List (Option α))
  | [] => Except.ok []
  | c :: cs =>
    match restoreCode dt c, restore dt cs with
    | Except.ok l, Except.ok ls => Except.ok (l :: ls)
    | Except.error e, _ => Except.error e
    | Except.ok _, Except.error e => Except.error e

/-- The total decode map (meaningful on valid codes): sentinel to missing,
position `k` to `categories[k]`. -/
def decodeAll (dt : CategoricalDtype α) (codes : List (Option Nat)) : List (Option α) :=
  codes.map (fun c => c.bind (fun k => dt.categories[k]?))

/-- The codec `CategoricalOps.prepare` (`col.cat.codes`): encode a label column by the
position of each label in the category list; missing or unknown labels
become the sentinel. -/
def prepare (cats : List α) (labels : List (Option α)) : List (Option Nat) :=
  labels.map (fun l => l.bind (posOf cats))

/-- A materialized categorical value: a label column (each entry a category
member or missing) together with its schema (a pandas categorical Series). -/
structure CatValue (α : Type) where
  labels : List (Option α)
  dtype : CategoricalDtype α
deriving DecidableEq

/-- Drop a label if it belongs to `removals` (the pandas NaN-conversion of
removed categories). -/
def removeLabel (removals : List α) (l : Option α) : Option α :=
  l.bind (fun x => if x ∈ removals then none else some x)

/-- Apply a dict-like rename mapping: the image of the first matching key,
or the label itself when it is not a key. -/
def dictApply : List (α × α) → α → α
  | [], c => c
  | (k, v) :: m, c => if k = c then v else dictApply m c

/-- Positional relabelling for the list form of `rename_categories`: the
label at old position `k` becomes the `k`-th entry of the new list. -/
def relabelList (old new : List α) (l : Option α) : Option α :=
  l.bind (fun x => (posOf old x).bind (fun k => new[k]?))

/-- The three accepted shapes of a `rename_categories` mapping: list-like
(positional), dict-like (partial), or a callable. -/
inductive RenameMapping (α : Type) where
  | listLike : List α → RenameMapping α
  | dictLike : List (α × α) → RenameMapping α
  | funcLike : (α → α) → RenameMapping α

/-- Modelled from the spec: the local categorical-value library operation
`Series.cat.add_categories` (the pyspark `CategoricalAccessor` is not under
`src/`). Precondition: the new items are unique and disjoint from the
current categories; effect: they are appended at the end and the labels are
untouched. -/
def catAddCategories (v : CatValue α) (new : List α) : Except CatError (CatValue α) :=
  if (∃ x ∈ new, x ∈ v.dtype.categories) ∨ ¬ new.Nodup then
    Except.error (CatError.validation "new categories must not include old categories")
  else
    Except.ok { labels := v.labels,
                dtype := { categories := v.dtype.categories ++ new,
                           ordered := v.dtype.ordered } }

/-- Modelled from the spec: `Series.cat.remove_categories`. Precondition:
every removal is a current category; effect: the removed categories are
deleted (order of the rest preserved) and labels in `removals` become
missing. -/
def catRemoveCategories (v : CatValue α) (removals : List α) : Except CatError (CatValue α) :=
  if ∃ r ∈ removals, r ∉ v.dtype.categories then
    Except.error (CatError.validation "removals must all be in old categories")
  else
    Except.ok { labels := v.labels.map (removeLabel removals),
                dtype := { categories := v.dtype.categories.filter (fun c => decide (c ∉ removals)),
                           ordered := v.dtype.ordered } }

/-- Modelled from the spec: `Series.cat.rename_categories`. List form:
must match the category count and produce no duplicates, labels follow
positionally. Dict form: keyed categories are replaced, others pass
through, extra keys are ignored; the result must have no duplicates.
Callable form: applied to every category. -/
def catRenameCategories (v : CatValue α) (mapping : RenameMapping α) :
    Except CatError (CatValue α) :=
  match mapping with
  | RenameMapping.listLike new =>
    if new.length ≠ v.dtype.categories.length then
      Except.error (CatError.validation
        "new categories need to have the same number of items as the old categories")
    else if ¬ new.Nodup then
      Except.error (CatError.validation "Categorical categories must be unique")
    else
      Except.ok { labels := v.labels.map (relabelList v.dtype.categories new),
                  dtype := { categories := new, ordered := v.dtype.ordered } }
  | RenameMapping.dictLike m =>
    if ¬ (v.dtype.categories.map (dictApply m)).Nodup then
      Except.error (CatError.validation "Categorical categories must be unique")
    else
      Except.ok { labels := v.labels.map (Option.map (dictApply m)),
                  dtype := { categories := v.dtype.categories.map (dictApply m),
                             ordered := v.dtype.ordered } }
  | RenameMapping.funcLike f =>
    if ¬ (v.dtype.categories.map f).Nodup then
      Except.error (CatError.validation "Categorical categories must be unique")
    else
      Except.ok { labels := v.labels.map (Option.map f),
                  dtype := { categories := v.dtype.categories.map f,
                             ordered := v.dtype.ordered } }

/-- Modelled from the spec: `Series.cat.as_ordered` — the ordered flag is
set, categories and labels untouched. -/
def catAsOrdered (v : CatValue α) : CatValue α :=
  { v with dtype := { v.dtype with ordered := true } }

/-- Modelled from the spec: `Series.cat.as_unordered` — the ordered flag is
cleared, categories and labels untouched. -/
def catAsUnordered (v : CatValue α) : CatValue α :=
  { v with dtype := { v.dtype with ordered := false } }

/-- The engine-side categorical column owned by a `CategoricalIndex`:
a stored code column, its schema entry, and the index name. -/
structure CategoricalIndex (α : Type) where
  codes : List (Option Nat)
  dtype : CategoricalDtype α
  name : Option String
deriving DecidableEq

/-- The operation `Index.rename`: replace the index name. -/
def renameIdx (c : CategoricalIndex α) (n : Option String) : CategoricalIndex α :=
  { c with name := n }

/-- The materialization `self.to_series()`: the stored codes are decoded
through `restore` into a local categorical value. -/
def to_series (c : CategoricalIndex α) : Except CatError (CatValue α) :=
  match restore c.dtype c.codes with
  | Except.ok labels => Except.ok { labels := labels, dtype := c.dtype }
  | Except.error e => Except.error e

/-- The constructor path `CategoricalIndex(series)` on an already-categorical series: the value
is re-encoded through `prepare` and its schema attached unchanged. -/
def fromValue (v : CatValue α) (name : Option String) : CategoricalIndex α :=
  { codes := prepare v.dtype.categories v.labels, dtype := v.dtype, name := name }

/-- The operation `CategoricalIndex.add_categories`: reject `inplace`, materialize,
delegate to the category algebra, re-wrap and restore the receiver name. -/
def add_categories (c : CategoricalIndex α) (new : List α) (inplace : Bool) :
    Except CatError (CategoricalIndex α) :=
  if inplace then Except.error CatError.unsupportedInplace
  else
    match to_series c with
    | Except.error e => Except.error e
    | Except.ok v =>
      match catAddCategories v new with
      | Except.error e => Except.error e
      | Except.ok v2 => Except.ok (renameIdx (fromValue v2 none) c.name)

/-- The operation `CategoricalIndex.remove_categories`: reject `inplace`, materialize,
delegate to the category algebra, re-wrap and restore the receiver name. -/
def remove_categories (c : CategoricalIndex α) (removals : List α) (inplace : Bool) :
    Except CatError (CategoricalIndex α) :=
  if inplace then Except.error CatError.unsupportedInplace
  else
    match to_series c with
    | Except.error e => Except.error e
    | Except.ok v =>
      match catRemoveCategories v removals with
      | Except.error e => Except.error e
      | Except.ok v2 => Except.ok (renameIdx (fromValue v2 none) c.name)

/-- The operation `CategoricalIndex.rename_categories`: reject `inplace`, materialize,
delegate to the category algebra, re-wrap and restore the receiver name. -/
def rename_categories (c : CategoricalIndex α) (mapping : RenameMapping α) (inplace : Bool) :
    Except CatError (CategoricalIndex α) :=
  if inplace then Except.error CatError.unsupportedInplace
  else
    match to_series c with
    | Except.error e => Except.error e
    | Except.ok v =>
      match catRenameCategories v mapping with
      | Except.error e => Except.error e
      | Except.ok v2 => Except.ok (renameIdx (fromValue v2 none) c.name)

/-- The operation `CategoricalIndex.as_ordered`: reject `inplace`, materialize, set the
ordered flag, re-wrap and restore the receiver name. -/
def as_ordered (c : CategoricalIndex α) (inplace : Bool) :
    Except CatError (CategoricalIndex α) :=
  if inplace then Except.error CatError.unsupportedInplace
  else
    match to_series c with
    | Except.error e => Except.error e
    | Except.ok v => Except.ok (renameIdx (fromValue (catAsOrdered v) none) c.name)

/-- The operation `CategoricalIndex.as_unordered`: reject `inplace`, materialize, clear
the ordered flag, re-wrap and restore the receiver name. -/
def as_unordered (c : CategoricalIndex α) (inplace : Bool) :
    Except CatError (CategoricalIndex α) :=
  if inplace then Except.error CatError.unsupportedInplace
  else
    match to_series c with
    | Except.error e => Except.error e
    | Except.ok v => Except.ok (renameIdx (fromValue (catAsUnordered v) none) c.name)

/-- The `-1` integer rendering of a code column (`Categorical.codes`). -/
def codeAsInt : Option Nat → Int
  | none => -1
  | some k => (k : Int)

/-- Insert into a sorted list (used to model pandas category inference). -/
def insertSorted [LinearOrder α] (x : α) : List α → List α
  | [] => [x]
  | y :: ys => if x ≤ y then x :: y :: ys else y :: insertSorted x ys

/-- Sort a list ascending by repeated insertion. -/
def sortAsc [LinearOrder α] : List α → List α
  | [] => []
  | x :: xs => insertSorted x (sortAsc xs)

/-- Modelled from the spec: casting non-categorical data to dtype
`"category"` infers the categories as the sorted distinct non-missing
values of the data (pandas `astype("category")`). -/
def inferCategories [LinearOrder α] (vals : List (Option α)) : List α :=
  sortAsc (vals.filterMap id).dedup

/-- The `data` argument of `CategoricalIndex.__new__` when it is an
existing `Series` or `Index`: either plain values or already categorical. -/
inductive SeriesData (α : Type) where
  | plain : List (Option α) → SeriesData α
  | categorical : CatValue α → SeriesData α

/-- The `data` argument of `CategoricalIndex.__new__`: an existing
`Series`/`Index`, or raw array-like data. -/
inductive NewData (α : Type) where
  | seriesOrIndex : SeriesData α → NewData α
  | raw : List (Option α) → NewData α

/-- Modelled from the spec: `Index(data, dtype="category", name=name)` —
cast an existing Series/Index to categorical dtype. Categorical data keeps
its own dtype; plain data gets categories inferred from the values. -/
def indexAsCategory [LinearOrder α] (s : SeriesData α) (name : Option String) :
    CategoricalIndex α :=
  match s with
  | SeriesData.categorical v => fromValue v name
  | SeriesData.plain vals =>
    let cats := inferCategories vals
    { codes := prepare cats vals, dtype := { categories := cats, ordered := false },
      name := name }

/-- Modelled from the spec: the pandas `CategoricalIndex` constructor on
raw data — categories are the supplied ones or inferred, `ordered`
defaults to false, and values not in the categories become the sentinel. -/
def pdCategoricalIndexRaw [LinearOrder α] (vals : List (Option α))
    (categories : Option (List α)) (ordered : Option Bool) (name : Option String) :
    CategoricalIndex α :=
  let cats := categories.getD (inferCategories vals)
  { codes := prepare cats vals,
    dtype := { categories := cats, ordered := ordered.getD false },
    name := name }

/-- The constructor `CategoricalIndex.__new__`: for an existing `Series`/`Index` the data
is cast to dtype `"category"` (the `categories` and `ordered` arguments are
not consulted); otherwise the pandas `CategoricalIndex` constructor runs on
the raw data. -/
def categoricalIndexNew [LinearOrder α] (data : NewData α) (categories : Option (List α))
    (ordered : Option Bool) (name : Option String) : CategoricalIndex α :=
  match data with
  | NewData.seriesOrIndex s => indexAsCategory s name
  | NewData.raw vals => pdCategoricalIndexRaw vals categories ordered name

theorem posOf_lt {cats : List α} {x : α} {k : Nat} (h : posOf cats x = some k) :
    k < cats.length := by
  induction cats generalizing k with
  | nil => simp [posOf] at h
  | cons c cs ih =>
    by_cases hc : c = x
    · simp only [posOf, if_pos hc, Option.some.injEq] at h
      simp [← h]
    · simp only [posOf, if_neg hc, Option.map_eq_some'] at h
      obtain ⟨a, ha, hk⟩ := h
      have := ih ha
      simp only [List.length_cons]
      omega

theorem posOf_get {cats : List α} {x : α} {k : Nat} (h : posOf cats x = some k) :
    cats[k]? = some x := by
  induction cats generalizing k with
  | nil => simp [posOf] at h
  | cons c cs ih =>
    by_cases hc : c = x
    · simp only [posOf, if_pos hc, Option.some.injEq] at h
      subst hc
      simp [← h]
    · simp only [posOf, if_neg hc, Option.map_eq_some'] at h
      obtain ⟨a, ha, hk⟩ := h
      subst hk
      simpa using ih ha

theorem posOf_of_mem {cats : List α} {x : α} (h : x ∈ cats) :
    ∃ k, posOf cats x = some k := by
  induction cats with
  | nil => simp at h
  | cons c cs ih =>
    by_cases hc : c = x
    · exact ⟨0, by simp [posOf, hc]⟩
    · rcases List.mem_cons.1 h with h1 | h1
      · exact absurd h1.symm hc
      · obtain ⟨k, hk⟩ := ih h1
        exact ⟨k + 1, by simp [posOf, if_neg hc, hk]⟩

theorem posOf_get_of_nodup {cats : List α} (hnd : cats.Nodup) {k : Nat} {x : α}
    (h : cats[k]? = some x) : posOf cats x = some k := by
  induction cats generalizing k with
  | nil => simp at h
  | cons c cs ih =>
    rcases List.nodup_cons.1 hnd with ⟨hc, hcs⟩
    cases k with
    | zero =>
      simp at h
      simp [posOf, h]
    | succ k =>
      simp only [List.getElem?_cons_succ] at h
      have hx : x ∈ cs := List.getElem?_mem h
      have hne : c ≠ x := fun hcx => hc (hcx ▸ hx)
      simp [posOf, if_neg hne, ih hcs h]

theorem posOf_append_left {cats l2 : List α} {x : α} {k : Nat}
    (h : posOf cats x = some k) : posOf (cats ++ l2) x = some k := by
  induction cats generalizing k with
  | nil => simp [posOf] at h
  | cons c cs ih =>
    by_cases hc : c = x
    · simp [posOf, hc] at h ⊢
      omega
    · simp only [posOf, if_neg hc, Option.map_eq_some'] at h
      obtain ⟨a, ha, hk⟩ := h
      simp only [List.cons_append, posOf, if_neg hc, Option.map_eq_some']
      exact ⟨a, ih ha, hk⟩

theorem restore_eq_ok {dt : CategoricalDtype α} {codes : List (Option Nat)}
    (hv : validCodes dt codes) : restore dt codes = Except.ok (decodeAll dt codes) := by
  induction codes with
  | nil => rfl
  | cons c cs ih =>
    have hc : codeOk dt.categories.length c := hv c (by simp)
    have hcs : validCodes dt cs := fun d hd => hv d (by simp [hd])
    rw [restore, ih hcs]
    cases c with
    | none => simp [restoreCode, decodeAll]
    | some k =>
      have hk : k < dt.categories.length := hc
      have hx : dt.categories[k]? = some dt.categories[k] := List.getElem?_eq_getElem hk
      simp [restoreCode, hx, decodeAll]

theorem restore_eq_error {dt : CategoricalDtype α} {codes : List (Option Nat)}
    (h : ¬ validCodes dt codes) :
    restore dt codes = Except.error CatError.indexError := by
  induction codes with
  | nil => exact absurd (fun c hc => absurd hc (by simp)) h
  | cons c cs ih =>
    rw [restore]
    by_cases hc : codeOk dt.categories.length c
    · have hcs : ¬ validCodes dt cs := by
        intro hall
        refine h (fun d hd => ?_)
        rcases List.mem_cons.1 hd with rfl | hd2
        · exact hc
        · exact hall d hd2
      rw [ih hcs]
      cases c with
      | none => rfl
      | some k =>
        have hx : dt.categories[k]? = some dt.categories[k] := List.getElem?_eq_getElem hc
        simp [restoreCode, hx]
    · cases c with
      | none => exact absurd trivial hc
      | some k =>
        have hk : dt.categories.length ≤ k := Nat.le_of_not_lt hc
        have hx : dt.categories[k]? = none := List.getElem?_eq_none hk
        simp [restoreCode, hx]

theorem decodeAll_mem {dt : CategoricalDtype α} {codes : List (Option Nat)} :
    ∀ l ∈ decodeAll dt codes, ∀ x, l = some x → x ∈ dt.categories := by
  intro l hl x hx
  subst hx
  simp only [decodeAll, List.mem_map] at hl
  obtain ⟨c, _, hc⟩ := hl
  cases c with
  | none => simp at hc
  | some k =>
    simp only [Option.some_bind] at hc
    exact List.getElem?_mem hc

theorem prepare_validCodes (cats : List α) (labels : List (Option α)) :
    ∀ cd ∈ prepare cats labels, codeOk cats.length cd := by
  intro cd hcd
  simp only [prepare, List.mem_map] at hcd
  obtain ⟨l, _, hl⟩ := hcd
  subst hl
  cases l with
  | none => trivial
  | some x =>
    simp only [Option.some_bind]
    cases hp : posOf cats x with
    | none => trivial
    | some k => exact posOf_lt hp

theorem restore_prepare {dt : CategoricalDtype α} {labels : List (Option α)}
    (h : ∀ l ∈ labels, ∀ x, l = some x → x ∈ dt.categories) :
    restore dt (prepare dt.categories labels) = Except.ok labels := by
  induction labels with
  | nil => rfl
  | cons l ls ih =>
    have h1 : ∀ x, l = some x → x ∈ dt.categories := h l (by simp)
    have h2 : ∀ l2 ∈ ls, ∀ x, l2 = some x → x ∈ dt.categories :=
      fun l2 hl2 => h l2 (by simp [hl2])
    show restore dt (l.bind (posOf dt.categories) :: prepare dt.categories ls) = _
    rw [restore, ih h2]
    cases l with
    | none => rfl
    | some x =>
      obtain ⟨k, hk⟩ := posOf_of_mem (h1 x rfl)
      simp [hk, restoreCode, posOf_get hk]

theorem encode_decode_code {dt : CategoricalDtype α} (hnd : dt.categories.Nodup)
    {c : Option Nat} (hc : codeOk dt.categories.length c) :
    (c.bind (fun k => dt.categories[k]?)).bind (posOf dt.categories) = c := by
  cases c with
  | none => rfl
  | some k =>
    have hx : dt.categories[k]? = some dt.categories[k] := List.getElem?_eq_getElem hc
    simp [hx, posOf_get_of_nodup hnd hx]

theorem prepare_decodeAll {dt : CategoricalDtype α} (hnd : dt.categories.Nodup)
    {codes : List (Option Nat)} (hv : validCodes dt codes) :
    prepare dt.categories (decodeAll dt codes) = codes := by
  induction codes with
  | nil => rfl
  | cons c cs ih =>
    have hc : codeOk dt.categories.length c := hv c (by simp)
    have hcs : validCodes dt cs := fun d hd => hv d (by simp [hd])
    show (c.bind (fun k => dt.categories[k]?)).bind (posOf dt.categories) ::
        prepare dt.categories (decodeAll dt cs) = c :: cs
    rw [encode_decode_code hnd hc, ih hcs]

theorem to_series_eq_ok {c : CategoricalIndex α} (hv : validCodes c.dtype c.codes) :
    to_series c = Except.ok { labels := decodeAll c.dtype c.codes, dtype := c.dtype } := by
  unfold to_series
  rw [restore_eq_ok hv]

theorem to_series_ok_elim {c : CategoricalIndex α} {v : CatValue α}
    (h : to_series c = Except.ok v) :
    restore c.dtype c.codes = Except.ok v.labels ∧ v.dtype = c.dtype := by
  unfold to_series at h
  cases hr : restore c.dtype c.codes with
  | ok labels =>
    rw [hr] at h
    cases h
    exact ⟨rfl, rfl⟩
  | error e =>
    rw [hr] at h
    cases h

theorem add_categories_ok_elim {c : CategoricalIndex α} {new : List α} {b : Bool}
    {c2 : CategoricalIndex α} (h : add_categories c new b = Except.ok c2) :
    b = false ∧ ∃ v v2, to_series c = Except.ok v ∧ catAddCategories v new = Except.ok v2 ∧
      c2 = renameIdx (fromValue v2 none) c.name := by
  unfold add_categories at h
  cases b with
  | true => simp at h
  | false =>
    refine ⟨rfl, ?_⟩
    simp only [Bool.false_eq_true, if_false] at h
    split at h
    · cases h
    · rename_i v heq
      split at h
      · cases h
      · rename_i v2 heq2
        cases h
        exact ⟨v, v2, heq, heq2, rfl⟩

theorem remove_categories_ok_elim {c : CategoricalIndex α} {removals : List α} {b : Bool}
    {c2 : CategoricalIndex α} (h : remove_categories c removals b = Except.ok c2) :
    b = false ∧ ∃ v v2, to_series c = Except.ok v ∧
      catRemoveCategories v removals = Except.ok v2 ∧
      c2 = renameIdx (fromValue v2 none) c.name := by
  unfold remove_categories at h
  cases b with
  | true => simp at h
  | false =>
    refine ⟨rfl, ?_⟩
    simp only [Bool.false_eq_true, if_false] at h
    split at h
    · cases h
    · rename_i v heq
      split at h
      · cases h
      · rename_i v2 heq2
        cases h
        exact ⟨v, v2, heq, heq2, rfl⟩

theorem rename_categories_ok_elim {c : CategoricalIndex α} {mapping : RenameMapping α}
    {b : Bool} {c2 : CategoricalIndex α} (h : rename_categories c mapping b = Except.ok c2) :
    b = false ∧ ∃ v v2, to_series c = Except.ok v ∧
      catRenameCategories v mapping = Except.ok v2 ∧
      c2 = renameIdx (fromValue v2 none) c.name := by
  unfold rename_categories at h
  cases b with
  | true => simp at h
  | false =>
    refine ⟨rfl, ?_⟩
    simp only [Bool.false_eq_true, if_false] at h
    split at h
    · cases h
    · rename_i v heq
      split at h
      · cases h
      · rename_i v2 heq2
        cases h
        exact ⟨v, v2, heq, heq2, rfl⟩

theorem as_ordered_ok_elim {c : CategoricalIndex α} {b : Bool} {c2 : CategoricalIndex α}
    (h : as_ordered c b = Except.ok c2) :
    b = false ∧ ∃ v, to_series c = Except.ok v ∧
      c2 = renameIdx (fromValue (catAsOrdered v) none) c.name := by
  unfold as_ordered at h
  cases b with
  | true => simp at h
  | false =>
    refine ⟨rfl, ?_⟩
    simp only [Bool.false_eq_true, if_false] at h
    split at h
    · cases h
    · rename_i v heq
      cases h
      exact ⟨v, heq, rfl⟩

theorem as_unordered_ok_elim {c : CategoricalIndex α} {b : Bool} {c2 : CategoricalIndex α}
    (h : as_unordered c b = Except.ok c2) :
    b = false ∧ ∃ v, to_series c = Except.ok v ∧
      c2 = renameIdx (fromValue (catAsUnordered v) none) c.name := by
  unfold as_unordered at h
  cases b with
  | true => simp at h
  | false =>
    refine ⟨rfl, ?_⟩
    simp only [Bool.false_eq_true, if_false] at h
    split at h
    · cases h
    · rename_i v heq
      cases h
      exact ⟨v, heq, rfl⟩

theorem renameIdx_fromValue_validCodes (v : CatValue α) (n1 n2 : Option String) :
    validCodes (renameIdx (fromValue v n1) n2).dtype (renameIdx (fromValue v n1) n2).codes :=
  prepare_validCodes v.dtype.categories v.labels

theorem map_eq_self_of_valid {dt : CategoricalDtype α} {codes : List (Option Nat)}
    (hv : validCodes dt codes) (f : Option Nat → Option Nat)
    (hf : f none = none)
    (hs : ∀ k, k < dt.categories.length → f (some k) = some k) :
    codes.map f = codes := by
  induction codes with
  | nil => rfl
  | cons c cs ih =>
    have hc : codeOk dt.categories.length c := hv c (by simp)
    have hcs : validCodes dt cs := fun d hd => hv d (by simp [hd])
    have hhead : f c = c := by
      cases c with
      | none => exact hf
      | some k => exact hs k hc
    simp [hhead, ih hcs]

theorem prepare_map_decodeAll (dt : CategoricalDtype α) (g : Option α → Option α)
    (cats2 : List α) (codes : List (Option Nat)) :
    prepare cats2 ((decodeAll dt codes).map g) =
      codes.map (fun c => (g (c.bind (fun k => dt.categories[k]?))).bind (posOf cats2)) := by
  simp [prepare, decodeAll, List.map_map, Function.comp]

theorem restore_error_eq {dt : CategoricalDtype α} {codes : List (Option Nat)} {e : CatError}
    (h : restore dt codes = Except.error e) : e = CatError.indexError := by
  by_cases hv : validCodes dt codes
  · rw [restore_eq_ok hv] at h
    cases h
  · rw [restore_eq_error hv] at h
    injection h with h2
    exact h2.symm

theorem to_series_error_elim {c : CategoricalIndex α} {e : CatError}
    (h : to_series c = Except.error e) : e = CatError.indexError := by
  unfold to_series at h
  split at h
  · cases h
  · rename_i e2 heq
    injection h with h2
    exact h2 ▸ restore_error_eq heq

theorem catAddCategories_error_elim {v : CatValue α} {new : List α} {e : CatError}
    (h : catAddCategories v new = Except.error e) : ∃ msg, e = CatError.validation msg := by
  unfold catAddCategories at h
  split at h
  · injection h with h2
    exact ⟨_, h2.symm⟩
  · cases h

theorem catRemoveCategories_error_elim {v : CatValue α} {removals : List α} {e : CatError}
    (h : catRemoveCategories v removals = Except.error e) :
    ∃ msg, e = CatError.validation msg := by
  unfold catRemoveCategories at h
  split at h
  · injection h with h2
    exact ⟨_, h2.symm⟩
  · cases h

theorem catRenameCategories_error_elim {v : CatValue α} {mp : RenameMapping α} {e : CatError}
    (h : catRenameCategories v mp = Except.error e) : ∃ msg, e = CatError.validation msg := by
  cases mp with
  | listLike new =>
    simp only [catRenameCategories] at h
    split at h
    · injection h with h2
      exact ⟨_, h2.symm⟩
    · split at h
      · injection h with h2
        exact ⟨_, h2.symm⟩
      · cases h
  | dictLike m =>
    simp only [catRenameCategories] at h
    split at h
    · injection h with h2
      exact ⟨_, h2.symm⟩
    · cases h
  | funcLike f =>
    simp only [catRenameCategories] at h
    split at h
    · injection h with h2
      exact ⟨_, h2.symm⟩
    · cases h

theorem add_categories_eq_ok {c : CategoricalIndex α} {new : List α} {v v2 : CatValue α}
    (hts : to_series c = Except.ok v) (hop : catAddCategories v new = Except.ok v2) :
    add_categories c new false = Except.ok (renameIdx (fromValue v2 none) c.name) := by
  unfold add_categories
  simp only [Bool.false_eq_true, if_false, hts, hop]

theorem add_categories_eq_error {c : CategoricalIndex α} {new : List α} {v : CatValue α}
    {e : CatError} (hts : to_series c = Except.ok v)
    (hop : catAddCategories v new = Except.error e) :
    add_categories c new false = Except.error e := by
  unfold add_categories
  simp only [Bool.false_eq_true, if_false, hts, hop]

theorem remove_categories_eq_ok {c : CategoricalIndex α} {removals : List α} {v v2 : CatValue α}
    (hts : to_series c = Except.ok v) (hop : catRemoveCategories v removals = Except.ok v2) :
    remove_categories c removals false = Except.ok (renameIdx (fromValue v2 none) c.name) := by
  unfold remove_categories
  simp only [Bool.false_eq_true, if_false, hts, hop]

theorem remove_categories_eq_error {c : CategoricalIndex α} {removals : List α}
    {v : CatValue α} {e : CatError} (hts : to_series c = Except.ok v)
    (hop : catRemoveCategories v removals = Except.error e) :
    remove_categories c removals false = Except.error e := by
  unfold remove_categories
  simp only [Bool.false_eq_true, if_false, hts, hop]

theorem rename_categories_eq_ok {c : CategoricalIndex α} {mp : RenameMapping α}
    {v v2 : CatValue α} (hts : to_series c = Except.ok v)
    (hop : catRenameCategories v mp = Except.ok v2) :
    rename_categories c mp false = Except.ok (renameIdx (fromValue v2 none) c.name) := by
  unfold rename_categories
  simp only [Bool.false_eq_true, if_false, hts, hop]

theorem rename_categories_eq_error {c : CategoricalIndex α} {mp : RenameMapping α}
    {v : CatValue α} {e : CatError} (hts : to_series c = Except.ok v)
    (hop : catRenameCategories v mp = Except.error e) :
    rename_categories c mp false = Except.error e := by
  unfold rename_categories
  simp only [Bool.false_eq_true, if_false, hts, hop]

theorem as_ordered_eq_ok {c : CategoricalIndex α} {v : CatValue α}
    (hts : to_series c = Except.ok v) :
    as_ordered c false = Except.ok (renameIdx (fromValue (catAsOrdered v) none) c.name) := by
  unfold as_ordered
  simp only [Bool.false_eq_true, if_false, hts]

theorem as_unordered_eq_ok {c : CategoricalIndex α} {v : CatValue α}
    (hts : to_series c = Except.ok v) :
    as_unordered c false = Except.ok (renameIdx (fromValue (catAsUnordered v) none) c.name) := by
  unfold as_unordered
  simp only [Bool.false_eq_true, if_false, hts]

theorem prepare_decodeAll_map (dt : CategoricalDtype α) (cats2 : List α)
    (codes : List (Option Nat)) :
    prepare cats2 (decodeAll dt codes) =
      codes.map (fun c => (c.bind (fun k => dt.categories[k]?)).bind (posOf cats2)) := by
  simp [prepare, decodeAll, List.map_map, Function.comp]

theorem removeLabel_mem_filter {dt : CategoricalDtype α} {codes : List (Option Nat)}
    (removals : List α) :
    ∀ l ∈ (decodeAll dt codes).map (removeLabel removals), ∀ x, l = some x →
      x ∈ dt.categories.filter (fun c => decide (c ∉ removals)) := by
  intro l hl x hx
  subst hx
  rcases List.mem_map.1 hl with ⟨l0, hl0, heq⟩
  cases l0 with
  | none => simp [removeLabel] at heq
  | some y =>
    simp only [removeLabel, Option.some_bind] at heq
    by_cases hy : y ∈ removals
    · rw [if_pos hy] at heq
      cases heq
    · rw [if_neg hy] at heq
      cases heq
      have hmem := decodeAll_mem _ hl0 _ rfl
      simp [List.mem_filter, hmem, hy]

theorem dictApply_not_key {m : List (α × α)} {x : α} (h : ∀ p ∈ m, p.1 ≠ x) :
    dictApply m x = x := by
  induction m with
  | nil => rfl
  | cons p m ih =>
    obtain ⟨k, v⟩ := p
    have hk : k ≠ x := h (k, v) (by simp)
    rw [dictApply, if_neg hk]
    exact ih (fun q hq => h q (by simp [hq]))

/-- C1: for every categorical column whose non-sentinel codes all index valid
positions in its category list, and for every successful mutation operation
(`add_categories`, `remove_categories`, `rename_categories`, `as_ordered`,
`as_unordered`), every non-sentinel code in the returned column is a valid
position in the returned column's new category list. -/
theorem mutation_code_validity (c : CategoricalIndex α) (hv : validCodes c.dtype c.codes) :
    (∀ (new : List α) (b : Bool) (c2 : CategoricalIndex α),
        add_categories c new b = Except.ok c2 → validCodes c2.dtype c2.codes) ∧
    (∀ (removals : List α) (b : Bool) (c2 : CategoricalIndex α),
        remove_categories c removals b = Except.ok c2 → validCodes c2.dtype c2.codes) ∧
    (∀ (mp : RenameMapping α) (b : Bool) (c2 : CategoricalIndex α),
        rename_categories c mp b = Except.ok c2 → validCodes c2.dtype c2.codes) ∧
    (∀ (b : Bool) (c2 : CategoricalIndex α),
        as_ordered c b = Except.ok c2 → validCodes c2.dtype c2.codes) ∧
    (∀ (b : Bool) (c2 : CategoricalIndex α),
        as_unordered c b = Except.ok c2 → validCodes c2.dtype c2.codes) := by
  refine ⟨?_, ?_, ?_, ?_, ?_⟩
  · intro new b c2 h
    obtain ⟨-, v, v2, -, -, rfl⟩ := add_categories_ok_elim h
    exact renameIdx_fromValue_validCodes v2 none c.name
  · intro removals b c2 h
    obtain ⟨-, v, v2, -, -, rfl⟩ := remove_categories_ok_elim h
    exact renameIdx_fromValue_validCodes v2 none c.name
  · intro mp b c2 h
    obtain ⟨-, v, v2, -, -, rfl⟩ := rename_categories_ok_elim h
    exact renameIdx_fromValue_validCodes v2 none c.name
  · intro b c2 h
    obtain ⟨-, v, -, rfl⟩ := as_ordered_ok_elim h
    exact renameIdx_fromValue_validCodes _ none c.name
  · intro b c2 h
    obtain ⟨-, v, -, rfl⟩ := as_unordered_ok_elim h
    exact renameIdx_fromValue_validCodes _ none c.name

/-- Witness for C1: the invariant checked on the result of a concrete
`add_categories` call. -/
theorem mutation_code_validity_witness :
    validCodes { categories := [10, 20, 30, 9], ordered := false }
      [some 0, some 1, none, some 2] :=
  (mutation_code_validity
      { codes := [some 0, some 1, none, some 2],
        dtype := { categories := [10, 20, 30], ordered := false }, name := some "n" }
      (by decide)).1 [9] false
      { codes := [some 0, some 1, none, some 2],
        dtype := { categories := [10, 20, 30, 9], ordered := false }, name := some "n" }
      (by decide)

/-- C2: for every schema with distinct categories and every code column
satisfying the code-validity invariant, re-encoding the decoded column
gives back the original codes: `prepare (restore codes) = codes`. -/
theorem encode_decode_round_trip (dt : CategoricalDtype α) (codes : List (Option Nat))
    (hnd : dt.categories.Nodup) (hv : validCodes dt codes) :
    (restore dt codes).map (fun labels => prepare dt.categories labels) =
      Except.ok codes := by
  rw [restore_eq_ok hv]
  show Except.ok (prepare dt.categories (decodeAll dt codes)) = Except.ok codes
  rw [prepare_decodeAll hnd hv]

/-- Witness for C2 at a concrete schema and code column. -/
theorem encode_decode_round_trip_witness :
    (restore { categories := [10, 20, 30], ordered := false }
        [some 0, some 1, none, some 2]).map
      (fun labels => prepare [10, 20, 30] labels) =
      Except.ok [some 0, some 1, none, some 2] :=
  encode_decode_round_trip { categories := [10, 20, 30], ordered := false }
    [some 0, some 1, none, some 2] (by decide) (by decide)

/-- C8: decode (`restore`) fails with the `IndexError`-class condition
whenever some non-sentinel code is out of range, and on a column satisfying
the code-validity invariant it succeeds, mapping the sentinel to missing
and code `k` to `categories[k]`. -/
theorem restore_internal_consistency :
    (∀ (dt : CategoricalDtype α) (codes : List (Option Nat)),
        (∃ k, some k ∈ codes ∧ dt.categories.length ≤ k) →
        restore dt codes = Except.error CatError.indexError) ∧
    (∀ (dt : CategoricalDtype α) (codes : List (Option Nat)),
        validCodes dt codes →
        restore dt codes =
          Except.ok (codes.map (fun c => c.bind (fun k => dt.categories[k]?)))) := by
  constructor
  · intro dt codes ⟨k, hk, hlen⟩
    apply restore_eq_error
    intro hall
    exact absurd (hall (some k) hk) (Nat.not_lt.2 hlen)
  · intro dt codes hv
    exact restore_eq_ok hv

/-- Witness for C8: a concrete out-of-range decode and a concrete
successful decode. -/
theorem restore_internal_consistency_witness :
    restore { categories := [10, 20, 30], ordered := false } [some 5] =
        Except.error CatError.indexError ∧
    restore { categories := [10, 20, 30], ordered := false } [some 0, none] =
        Except.ok [some 10, none] := by
  constructor
  · exact restore_internal_consistency.1 _ [some 5] ⟨5, by decide, by decide⟩
  · exact restore_internal_consistency.2
      { categories := [10, 20, 30], ordered := false } [some 0, none] (by decide)

/-- C10: every mutation operation returns a `CategoricalIndex` carrying the
same name as the receiver. -/
theorem mutation_preserves_name (c : CategoricalIndex α) :
    (∀ (new : List α) (b : Bool) (c2 : CategoricalIndex α),
        add_categories c new b = Except.ok c2 → c2.name = c.name) ∧
    (∀ (removals : List α) (b : Bool) (c2 : CategoricalIndex α),
        remove_categories c removals b = Except.ok c2 → c2.name = c.name) ∧
    (∀ (mp : RenameMapping α) (b : Bool) (c2 : CategoricalIndex α),
        rename_categories c mp b = Except.ok c2 → c2.name = c.name) ∧
    (∀ (b : Bool) (c2 : CategoricalIndex α),
        as_ordered c b = Except.ok c2 → c2.name = c.name) ∧
    (∀ (b : Bool) (c2 : CategoricalIndex α),
        as_unordered c b = Except.ok c2 → c2.name = c.name) := by
  refine ⟨?_, ?_, ?_, ?_, ?_⟩
  · intro new b c2 h
    obtain ⟨-, v, v2, -, -, rfl⟩ := add_categories_ok_elim h
    rfl
  · intro removals b c2 h
    obtain ⟨-, v, v2, -, -, rfl⟩ := remove_categories_ok_elim h
    rfl
  · intro mp b c2 h
    obtain ⟨-, v, v2, -, -, rfl⟩ := rename_categories_ok_elim h
    rfl
  · intro b c2 h
    obtain ⟨-, v, -, rfl⟩ := as_ordered_ok_elim h
    rfl
  · intro b c2 h
    obtain ⟨-, v, -, rfl⟩ := as_unordered_ok_elim h
    rfl

/-- Witness for C10: the name survives a concrete `remove_categories`. -/
theorem mutation_preserves_name_witness :
    (({ codes := [some 0, none, none, some 1],
        dtype := { categories := [10, 30], ordered := false },
        name := some "n" } : CategoricalIndex Nat)).name =
      ({ codes := [some 0, some 1, none, some 2],
         dtype := { categories := [10, 20, 30], ordered := false },
         name := some "n" } : CategoricalIndex Nat).name :=
  (mutation_preserves_name
      { codes := [some 0, some 1, none, some 2],
        dtype := { categories := [10, 20, 30], ordered := false },
        name := some "n" }).2.1 [20] false
    { codes := [some 0, none, none, some 1],
      dtype := { categories := [10, 30], ordered := false }, name := some "n" }
    (by decide)

/-- C3: removing a subset of the categories converts the removed labels to
missing and keeps every other label unchanged (codes may be compacted), and the
spec's concrete scenario behaves as stated. -/
theorem remove_categories_to_missing :
    (∀ (β : Type) [inst : DecidableEq β] (c : CategoricalIndex β) (removals : List β),
        validCodes c.dtype c.codes →
        (∀ r ∈ removals, r ∈ c.dtype.categories) →
        ∃ c2 oldLabels,
          remove_categories c removals false = Except.ok c2 ∧
          restore c.dtype c.codes = Except.ok oldLabels ∧
          restore c2.dtype c2.codes = Except.ok (oldLabels.map (removeLabel removals))) ∧
    (remove_categories
        { codes := [some 0, some 1, some 1, some 2],
          dtype := { categories := ["a", "b", "c"], ordered := false }, name := none }
        ["b"] false =
      Except.ok
        { codes := [some 0, none, none, some 1],
          dtype := { categories := ["a", "c"], ordered := false }, name := none } ∧
      List.map codeAsInt [some 0, none, none, some 1] = [0, -1, -1, 1]) := by
  constructor
  · intro β _ c removals hv hsub
    have hts := to_series_eq_ok hv
    have hcond : ¬ ∃ r ∈ removals,
        r ∉ ({ labels := decodeAll c.dtype c.codes, dtype := c.dtype } :
          CatValue β).dtype.categories := by
      push_neg
      exact hsub
    have hop : catRemoveCategories
        { labels := decodeAll c.dtype c.codes, dtype := c.dtype } removals =
        Except.ok { labels := (decodeAll c.dtype c.codes).map (removeLabel removals),
                    dtype := { categories := c.dtype.categories.filter
                                 (fun x => decide (x ∉ removals)),
                               ordered := c.dtype.ordered } } := by
      unfold catRemoveCategories
      rw [if_neg hcond]
    refine ⟨_, decodeAll c.dtype c.codes,
      remove_categories_eq_ok hts hop, restore_eq_ok hv, ?_⟩
    exact restore_prepare (removeLabel_mem_filter removals)
  · constructor
    · decide
    · decide

/-- Witness for C3: the general statement instantiated at a concrete
column and removal set. -/
theorem remove_categories_to_missing_witness :
    ∃ (c2 : CategoricalIndex Nat) (oldLabels : List (Option Nat)),
      remove_categories
          { codes := [some 0, some 1, none, some 2],
            dtype := { categories := [10, 20, 30], ordered := false }, name := some "n" }
          [20] false = Except.ok c2 ∧
      restore { categories := [10, 20, 30], ordered := false }
          [some 0, some 1, none, some 2] = Except.ok oldLabels ∧
      restore c2.dtype c2.codes = Except.ok (oldLabels.map (removeLabel [20])) :=
  remove_categories_to_missing.1 Nat
    { codes := [some 0, some 1, none, some 2],
      dtype := { categories := [10, 20, 30], ordered := false }, name := some "n" }
    [20] (by decide) (by decide)

/-- C4: renaming categories keeps the code column identical; the list form
replaces the category list element-wise by the supplied list, and the dict
form rewrites exactly the keyed categories, passing the others through. -/
theorem rename_categories_preserves_codes :
    (∀ (β : Type) [inst : DecidableEq β] (c : CategoricalIndex β) (new : List β),
        validCodes c.dtype c.codes → c.dtype.categories.Nodup →
        new.length = c.dtype.categories.length → new.Nodup →
        ∃ c2, rename_categories c (RenameMapping.listLike new) false = Except.ok c2 ∧
          c2.codes = c.codes ∧ c2.dtype.categories = new) ∧
    (∀ (β : Type) [inst : DecidableEq β] (c : CategoricalIndex β) (m : List (β × β)),
        validCodes c.dtype c.codes → c.dtype.categories.Nodup →
        (c.dtype.categories.map (dictApply m)).Nodup →
        ∃ c2, rename_categories c (RenameMapping.dictLike m) false = Except.ok c2 ∧
          c2.codes = c.codes ∧
          c2.dtype.categories = c.dtype.categories.map (dictApply m) ∧
          ∀ x, (∀ p ∈ m, p.1 ≠ x) → dictApply m x = x) := by
  constructor
  · intro β _ c new hv hnd hlen hnodup
    have hts := to_series_eq_ok hv
    have hop : catRenameCategories
        { labels := decodeAll c.dtype c.codes, dtype := c.dtype }
        (RenameMapping.listLike new) =
        Except.ok { labels := (decodeAll c.dtype c.codes).map
                      (relabelList c.dtype.categories new),
                    dtype := { categories := new, ordered := c.dtype.ordered } } := by
      simp only [catRenameCategories]
      rw [if_neg (fun hne => hne hlen), if_neg (not_not_intro hnodup)]
    refine ⟨_, rename_categories_eq_ok hts hop, ?_, rfl⟩
    show prepare new ((decodeAll c.dtype c.codes).map (relabelList c.dtype.categories new)) =
      c.codes
    rw [prepare_map_decodeAll]
    apply map_eq_self_of_valid hv
    · rfl
    · intro k hk
      have hx : c.dtype.categories[k]? = some c.dtype.categories[k] :=
        List.getElem?_eq_getElem hk
      have hk2 : k < new.length := by rw [hlen]; exact hk
      have hy : new[k]? = some new[k] := List.getElem?_eq_getElem hk2
      simp only [Option.some_bind, hx, relabelList, posOf_get_of_nodup hnd hx, hy]
      exact posOf_get_of_nodup hnodup hy
  · intro β _ c m hv hnd hmnd
    have hts := to_series_eq_ok hv
    have hop : catRenameCategories
        { labels := decodeAll c.dtype c.codes, dtype := c.dtype }
        (RenameMapping.dictLike m) =
        Except.ok { labels := (decodeAll c.dtype c.codes).map
                      (Option.map (dictApply m)),
                    dtype := { categories := c.dtype.categories.map (dictApply m),
                               ordered := c.dtype.ordered } } := by
      simp only [catRenameCategories]
      rw [if_neg (not_not_intro hmnd)]
    refine ⟨_, rename_categories_eq_ok hts hop, ?_, rfl, fun x hx => dictApply_not_key hx⟩
    show prepare (c.dtype.categories.map (dictApply m))
        ((decodeAll c.dtype c.codes).map (Option.map (dictApply m))) = c.codes
    rw [prepare_map_decodeAll]
    apply map_eq_self_of_valid hv
    · rfl
    · intro k hk
      have hx : c.dtype.categories[k]? = some c.dtype.categories[k] :=
        List.getElem?_eq_getElem hk
      have hmx : (c.dtype.categories.map (dictApply m))[k]? =
          some (dictApply m c.dtype.categories[k]) := by
        rw [List.getElem?_map, hx]
        rfl
      simp only [Option.some_bind, hx, Option.map_some']
      exact posOf_get_of_nodup hmnd hmx

/-- Witness for C4: both mapping forms at a concrete column. -/
theorem rename_categories_preserves_codes_witness :
    (∃ c2 : CategoricalIndex Nat,
      rename_categories
          { codes := [some 0, some 1, none, some 2],
            dtype := { categories := [10, 20, 30], ordered := false }, name := some "n" }
          (RenameMapping.listLike [5, 6, 7]) false = Except.ok c2 ∧
        c2.codes = [some 0, some 1, none, some 2] ∧ c2.dtype.categories = [5, 6, 7]) ∧
    (∃ c2 : CategoricalIndex Nat,
      rename_categories
          { codes := [some 0, some 1, none, some 2],
            dtype := { categories := [10, 20, 30], ordered := false }, name := some "n" }
          (RenameMapping.dictLike [(10, 99)]) false = Except.ok c2 ∧
        c2.codes = [some 0, some 1, none, some 2] ∧
        c2.dtype.categories = List.map (dictApply [(10, 99)]) [10, 20, 30] ∧
        ∀ x, (∀ p ∈ [(10, 99)], p.1 ≠ x) → dictApply [(10, 99)] x = x) :=
  ⟨rename_categories_preserves_codes.1 Nat
      { codes := [some 0, some 1, none, some 2],
        dtype := { categories := [10, 20, 30], ordered := false }, name := some "n" }
      [5, 6, 7] (by decide) (by decide) (by decide) (by decide),
   rename_categories_preserves_codes.2 Nat
      { codes := [some 0, some 1, none, some 2],
        dtype := { categories := [10, 20, 30], ordered := false }, name := some "n" }
      [(10, 99)] (by decide) (by decide) (by decide)⟩

/-- C5: adding new unique categories disjoint from the current ones appends
them at the end of the category list and leaves the code column unchanged. -/
theorem add_categories_appends (c : CategoricalIndex α) (new : List α)
    (hv : validCodes c.dtype c.codes) (hnd : c.dtype.categories.Nodup)
    (hnodup : new.Nodup) (hdisj : ∀ x ∈ new, x ∉ c.dtype.categories) :
    ∃ c2, add_categories c new false = Except.ok c2 ∧
      c2.dtype.categories = c.dtype.categories ++ new ∧ c2.codes = c.codes := by
  have hts := to_series_eq_ok hv
  have hcond : ¬((∃ x ∈ new,
      x ∈ ({ labels := decodeAll c.dtype c.codes, dtype := c.dtype } :
        CatValue α).dtype.categories) ∨ ¬ new.Nodup) := by
    push_neg
    exact ⟨hdisj, hnodup⟩
  have hop : catAddCategories
      { labels := decodeAll c.dtype c.codes, dtype := c.dtype } new =
      Except.ok { labels := decodeAll c.dtype c.codes,
                  dtype := { categories := c.dtype.categories ++ new,
                             ordered := c.dtype.ordered } } := by
    unfold catAddCategories
    rw [if_neg hcond]
  refine ⟨_, add_categories_eq_ok hts hop, rfl, ?_⟩
  show prepare (c.dtype.categories ++ new) (decodeAll c.dtype c.codes) = c.codes
  rw [prepare_decodeAll_map]
  apply map_eq_self_of_valid hv
  · rfl
  · intro k hk
    have hx : c.dtype.categories[k]? = some c.dtype.categories[k] :=
      List.getElem?_eq_getElem hk
    simp only [Option.some_bind, hx]
    exact posOf_append_left (posOf_get_of_nodup hnd hx)

/-- Witness for C5 at a concrete column. -/
theorem add_categories_appends_witness :
    ∃ c2 : CategoricalIndex Nat,
      add_categories
          { codes := [some 0, some 1, none, some 2],
            dtype := { categories := [10, 20, 30], ordered := false }, name := some "n" }
          [9, 8] false = Except.ok c2 ∧
      c2.dtype.categories = [10, 20, 30] ++ [9, 8] ∧
      c2.codes = [some 0, some 1, none, some 2] :=
  add_categories_appends
    { codes := [some 0, some 1, none, some 2],
      dtype := { categories := [10, 20, 30], ordered := false }, name := some "n" }
    [9, 8] (by decide) (by decide) (by decide) (by decide)

theorem add_categories_false_error_elim {c : CategoricalIndex α} {new : List α}
    {e : CatError} (h : add_categories c new false = Except.error e) :
    e = CatError.indexError ∨ ∃ msg, e = CatError.validation msg := by
  unfold add_categories at h
  simp only [Bool.false_eq_true, if_false] at h
  split at h
  · rename_i e2 heq
    injection h with h2
    exact Or.inl (h2 ▸ to_series_error_elim heq)
  · rename_i v heq
    split at h
    · rename_i e2 heq2
      injection h with h2
      obtain ⟨msg, hm⟩ := catAddCategories_error_elim heq2
      exact Or.inr ⟨msg, h2 ▸ hm⟩
    · cases h

theorem remove_categories_false_error_elim {c : CategoricalIndex α} {removals : List α}
    {e : CatError} (h : remove_categories c removals false = Except.error e) :
    e = CatError.indexError ∨ ∃ msg, e = CatError.validation msg := by
  unfold remove_categories at h
  simp only [Bool.false_eq_true, if_false] at h
  split at h
  · rename_i e2 heq
    injection h with h2
    exact Or.inl (h2 ▸ to_series_error_elim heq)
  · rename_i v heq
    split at h
    · rename_i e2 heq2
      injection h with h2
      obtain ⟨msg, hm⟩ := catRemoveCategories_error_elim heq2
      exact Or.inr ⟨msg, h2 ▸ hm⟩
    · cases h

theorem rename_categories_false_error_elim {c : CategoricalIndex α} {mp : RenameMapping α}
    {e : CatError} (h : rename_categories c mp false = Except.error e) :
    e = CatError.indexError ∨ ∃ msg, e = CatError.validation msg := by
  unfold rename_categories at h
  simp only [Bool.false_eq_true, if_false] at h
  split at h
  · rename_i e2 heq
    injection h with h2
    exact Or.inl (h2 ▸ to_series_error_elim heq)
  · rename_i v heq
    split at h
    · rename_i e2 heq2
      injection h with h2
      obtain ⟨msg, hm⟩ := catRenameCategories_error_elim heq2
      exact Or.inr ⟨msg, h2 ▸ hm⟩
    · cases h

theorem as_ordered_false_error_elim {c : CategoricalIndex α} {e : CatError}
    (h : as_ordered c false = Except.error e) : e = CatError.indexError := by
  unfold as_ordered at h
  simp only [Bool.false_eq_true, if_false] at h
  split at h
  · rename_i e2 heq
    injection h with h2
    exact h2 ▸ to_series_error_elim heq
  · cases h

theorem as_unordered_false_error_elim {c : CategoricalIndex α} {e : CatError}
    (h : as_unordered c false = Except.error e) : e = CatError.indexError := by
  unfold as_unordered at h
  simp only [Bool.false_eq_true, if_false] at h
  split at h
  · rename_i e2 heq
    injection h with h2
    exact h2 ▸ to_series_error_elim heq
  · cases h

/-- C6: every mutation operation called with `inplace = true` fails with the
unsupported-in-place error; with `inplace = false` the operation never
raises that error and (for the flag-flip operations on a valid column)
returns a new value. -/
theorem inplace_rejected :
    (∀ (β : Type) [inst : DecidableEq β] (c : CategoricalIndex β) (new : List β),
        add_categories c new true = Except.error CatError.unsupportedInplace) ∧
    (∀ (β : Type) [inst : DecidableEq β] (c : CategoricalIndex β) (removals : List β),
        remove_categories c removals true = Except.error CatError.unsupportedInplace) ∧
    (∀ (β : Type) [inst : DecidableEq β] (c : CategoricalIndex β) (mp : RenameMapping β),
        rename_categories c mp true = Except.error CatError.unsupportedInplace) ∧
    (∀ (β : Type) [inst : DecidableEq β] (c : CategoricalIndex β),
        as_ordered c true = Except.error CatError.unsupportedInplace ∧
        as_unordered c true = Except.error CatError.unsupportedInplace) ∧
    (∀ (β : Type) [inst : DecidableEq β] (c : CategoricalIndex β),
        validCodes c.dtype c.codes →
        (∃ c2, as_ordered c false = Except.ok c2) ∧
        (∃ c2, as_unordered c false = Except.ok c2)) ∧
    (∀ (β : Type) [inst : DecidableEq β] (c : CategoricalIndex β)
        (new removals : List β) (mp : RenameMapping β),
        add_categories c new false ≠ Except.error CatError.unsupportedInplace ∧
        remove_categories c removals false ≠ Except.error CatError.unsupportedInplace ∧
        rename_categories c mp false ≠ Except.error CatError.unsupportedInplace ∧
        as_ordered c false ≠ Except.error CatError.unsupportedInplace ∧
        as_unordered c false ≠ Except.error CatError.unsupportedInplace) := by
  refine ⟨fun β _ c new => rfl, fun β _ c removals => rfl, fun β _ c mp => rfl,
    fun β _ c => ⟨rfl, rfl⟩, ?_, ?_⟩
  · intro β _ c hv
    exact ⟨⟨_, as_ordered_eq_ok (to_series_eq_ok hv)⟩,
           ⟨_, as_unordered_eq_ok (to_series_eq_ok hv)⟩⟩
  · intro β _ c new removals mp
    refine ⟨?_, ?_, ?_, ?_, ?_⟩
    · intro heq
      rcases add_categories_false_error_elim heq with h1 | ⟨msg, h1⟩ <;> cases h1
    · intro heq
      rcases remove_categories_false_error_elim heq with h1 | ⟨msg, h1⟩ <;> cases h1
    · intro heq
      rcases rename_categories_false_error_elim heq with h1 | ⟨msg, h1⟩ <;> cases h1
    · intro heq
      cases as_ordered_false_error_elim heq
    · intro heq
      cases as_unordered_false_error_elim heq

/-- Witness for C6: the in-place rejection and the copy-on-write success at
a concrete column. -/
theorem inplace_rejected_witness :
    add_categories
        ({ codes := [some 0], dtype := { categories := [10], ordered := false },
           name := none } : CategoricalIndex Nat) [20] true =
      Except.error CatError.unsupportedInplace ∧
    ∃ c2, as_ordered
        ({ codes := [some 0], dtype := { categories := [10], ordered := false },
           name := none } : CategoricalIndex Nat) false = Except.ok c2 :=
  ⟨inplace_rejected.1 Nat
      { codes := [some 0], dtype := { categories := [10], ordered := false },
        name := none } [20],
   (inplace_rejected.2.2.2.2.1 Nat
      { codes := [some 0], dtype := { categories := [10], ordered := false },
        name := none } (by decide)).1⟩

/-- C7: each violated category-set precondition surfaces as a validation
error: adding an existing category, removing an absent category, a length
mismatch or duplicate result in a list-like rename. -/
theorem validation_errors :
    (∀ (β : Type) [inst : DecidableEq β] (c : CategoricalIndex β) (new : List β),
        validCodes c.dtype c.codes → (∃ x ∈ new, x ∈ c.dtype.categories) →
        ∃ msg, add_categories c new false = Except.error (CatError.validation msg)) ∧
    (∀ (β : Type) [inst : DecidableEq β] (c : CategoricalIndex β) (removals : List β),
        validCodes c.dtype c.codes → (∃ r ∈ removals, r ∉ c.dtype.categories) →
        ∃ msg, remove_categories c removals false =
          Except.error (CatError.validation msg)) ∧
    (∀ (β : Type) [inst : DecidableEq β] (c : CategoricalIndex β) (new : List β),
        validCodes c.dtype c.codes → new.length ≠ c.dtype.categories.length →
        ∃ msg, rename_categories c (RenameMapping.listLike new) false =
          Except.error (CatError.validation msg)) ∧
    (∀ (β : Type) [inst : DecidableEq β] (c : CategoricalIndex β) (new : List β),
        validCodes c.dtype c.codes → new.length = c.dtype.categories.length →
        ¬ new.Nodup →
        ∃ msg, rename_categories c (RenameMapping.listLike new) false =
          Except.error (CatError.validation msg)) := by
  refine ⟨?_, ?_, ?_, ?_⟩
  · intro β _ c new hv hex
    have hop : catAddCategories
        { labels := decodeAll c.dtype c.codes, dtype := c.dtype } new =
        Except.error
          (CatError.validation "new categories must not include old categories") := by
      unfold catAddCategories
      rw [if_pos (Or.inl hex)]
    exact ⟨_, add_categories_eq_error (to_series_eq_ok hv) hop⟩
  · intro β _ c removals hv hex
    have hop : catRemoveCategories
        { labels := decodeAll c.dtype c.codes, dtype := c.dtype } removals =
        Except.error (CatError.validation "removals must all be in old categories") := by
      unfold catRemoveCategories
      rw [if_pos hex]
    exact ⟨_, remove_categories_eq_error (to_series_eq_ok hv) hop⟩
  · intro β _ c new hv hne
    have hop : catRenameCategories
        { labels := decodeAll c.dtype c.codes, dtype := c.dtype }
        (RenameMapping.listLike new) =
        Except.error (CatError.validation
          "new categories need to have the same number of items as the old categories") := by
      simp only [catRenameCategories]
      rw [if_pos hne]
    exact ⟨_, rename_categories_eq_error (to_series_eq_ok hv) hop⟩
  · intro β _ c new hv hlen hnd
    have hop : catRenameCategories
        { labels := decodeAll c.dtype c.codes, dtype := c.dtype }
        (RenameMapping.listLike new) =
        Except.error (CatError.validation "Categorical categories must be unique") := by
      simp only [catRenameCategories]
      rw [if_neg (fun h => h hlen), if_pos hnd]
    exact ⟨_, rename_categories_eq_error (to_series_eq_ok hv) hop⟩

/-- Witness for C7: a duplicate `add_categories` and a rename length
mismatch on concrete columns. -/
theorem validation_errors_witness :
    (∃ msg, add_categories
        ({ codes := [some 0, some 1], dtype := { categories := [10, 20], ordered := false },
           name := none } : CategoricalIndex Nat) [20] false =
      Except.error (CatError.validation msg)) ∧
    (∃ msg, rename_categories
        ({ codes := [some 0, some 1], dtype := { categories := [10, 20], ordered := false },
           name := none } : CategoricalIndex Nat) (RenameMapping.listLike [5]) false =
      Except.error (CatError.validation msg)) :=
  ⟨validation_errors.1 Nat
      { codes := [some 0, some 1], dtype := { categories := [10, 20], ordered := false },
        name := none } [20] (by decide) ⟨20, by decide, by decide⟩,
   validation_errors.2.2.1 Nat
      { codes := [some 0, some 1], dtype := { categories := [10, 20], ordered := false },
        name := none } [5] (by decide) (by decide)⟩

/-- C9: when `CategoricalIndex.__new__` receives an existing Series/Index
as `data`, the supplied `categories` and `ordered` arguments are silently
ignored — the result is the cast of the data to dtype `"category"`, with
categories inferred from the data. -/
theorem constructor_ignores_categories_arg :
    ∀ (β : Type) [inst : DecidableEq β] [linst : LinearOrder β] (s : SeriesData β)
      (cats1 cats2 : Option (List β)) (ord1 ord2 : Option Bool) (nm : Option String),
      categoricalIndexNew (NewData.seriesOrIndex s) cats1 ord1 nm =
          categoricalIndexNew (NewData.seriesOrIndex s) cats2 ord2 nm ∧
      categoricalIndexNew (NewData.seriesOrIndex s) cats1 ord1 nm =
          indexAsCategory s nm ∧
      ∀ (vals : List (Option β)),
        (categoricalIndexNew (NewData.seriesOrIndex (SeriesData.plain vals))
            cats1 ord1 nm).dtype.categories = inferCategories vals :=
  fun β _ _ s cats1 cats2 ord1 ord2 nm => ⟨rfl, rfl, fun vals => rfl⟩

end SparkCat
